import Mathlib

/-!
Shallow embedding of the erebus morpheme-embedding program (src/main.rs).

Strings are modelled as lists of characters; the Rust iteration loops of
segment_into_morphemes and decompose_root_segments are modelled as
fuel-indexed structural recursions (the top-level entry points supply fuel
exceeding the maximal possible number of iterations, and fuel-stability is
proved separately).  The f32 feature arithmetic is modelled over the
rationals.  The loops over the pattern tables are parameterised by the
table, exactly as the design note in the specification prescribes; the
entry points instantiate them with the static tables of the program.
-/

namespace Erebus

/-- Rust char::is_ascii_alphabetic. -/
def isAsciiAlphabetic (c : Char) : Bool :=
  ('A' ≤ c && c ≤ 'Z') || ('a' ≤ c && c ≤ 'z')

/-- Rust char::to_ascii_lowercase. -/
def toAsciiLowercase (c : Char) : Char :=
  if 'A' ≤ c && c ≤ 'Z' then Char.ofNat (c.toNat + 32) else c

/-- Rust str::starts_with on the character-list model: pat is an initial
segment of l. -/
def startsWithL : List Char → List Char → Bool
  | _, [] => true
  | [], _ :: _ => false
  | c :: cs, p :: ps => (p = c) && startsWithL cs ps

/-- Rust str::ends_with on the character-list model: pat is a final segment
of l. -/
def endsWithL (l pat : List Char) : Bool :=
  startsWithL l.reverse pat.reverse

/-- Static table PREFIXES from src/main.rs. -/
def PREFIXES : List (List Char) :=
  ["hyper", "trans", "inter", "sesqui", "anti", "ab", "de", "dis", "ultra",
   "pseudo", "super"].map String.toList

/-- Static table SUFFIXES from src/main.rs. -/
def SUFFIXES : List (List Char) :=
  ["arianism", "ification", "mogrification", "ulation", "arian", "ation",
   "mentation", "iasis", "iosis", "osis", "ulate", "icism", "ism", "ious",
   "ian", "ness", "ment"].map String.toList

/-- Static table ROOT_PATTERNS from src/main.rs. -/
def ROOT_PATTERNS : List (List Char) :=
  ["antidisestablish", "establish", "transmogr", "cattywampus", "sesquiped",
   "biblio", "bibli", "hyper", "mogr", "meta", "morph", "klept", "fenestr",
   "squat", "wampus", "pedal", "ped", "kerfuffle", "fic", "ruffle",
   "fuffle"].map String.toList

/-- Static table SENSORY_KEYWORDS from src/main.rs. -/
def SENSORY_KEYWORDS : List (List Char) :=
  ["light", "bright", "glow", "sound", "tone", "taste", "touch", "smell",
   "colour", "color", "hear", "see"].map String.toList

/-- Static table ABSTRACT_KEYWORDS from src/main.rs. -/
def ABSTRACT_KEYWORDS : List (List Char) :=
  ["state", "quality", "ability", "capacity", "process", "condition",
   "power", "toughness", "recovery", "change", "time", "action"].map
    String.toList

/-- Enum MorphemeKind from src/main.rs; the Rust constructor names are
Prefix, Root, Suffix (declared in this order, which fixes the derived Ord).
The first and third are abbreviated Pfx and Sfx here. -/
inductive MorphemeKind
  | Pfx
  | Root
  | Sfx
deriving DecidableEq

/-- Struct Morpheme from src/main.rs. -/
structure Morpheme where
  kind : MorphemeKind
  text : List Char
deriving DecidableEq

/-- Cleaning step at the head of segment_into_morphemes: keep only ASCII
letters and lowercase them. -/
def cleanWord (word : List Char) : List Char :=
  (word.filter isAsciiAlphabetic).map toAsciiLowercase

/-- Prefix-stripping loop of segment_into_morphemes, parameterised by the
prefix table and a fuel bound on the iteration count.  Each iteration finds
the first table entry the working string starts with; a match at least as
long as the whole working string breaks the loop, otherwise the match is
recorded and stripped from the front.  Returns the recorded matches in
strip order together with the remaining working string. -/
def stripPrefixLoop : Nat → List (List Char) → List Char →
    List (List Char) × List Char
  | 0, _, working => ([], working)
  | fuel + 1, table, working =>
    match table.find? (fun cand => startsWithL working cand) with
    | none => ([], working)
    | some p =>
      if working.length ≤ p.length then ([], working)
      else
        ((p :: (stripPrefixLoop fuel table (working.drop p.length)).1,
          (stripPrefixLoop fuel table (working.drop p.length)).2))

/-- Suffix-stripping loop of segment_into_morphemes, parameterised by the
suffix table and a fuel bound.  Each iteration finds the first table entry
the core ends with; a match at least as long as the whole core breaks the
loop, otherwise the match is recorded (outermost first) and stripped from
the back.  Returns the matches in strip order together with the remaining
core. -/
def stripSuffixLoop : Nat → List (List Char) → List Char →
    List (List Char) × List Char
  | 0, _, core => ([], core)
  | fuel + 1, table, core =>
    match table.find? (fun cand => endsWithL core cand) with
    | none => ([], core)
    | some s =>
      if core.length ≤ s.length then ([], core)
      else
        ((s :: (stripSuffixLoop fuel table (core.take (core.length - s.length))).1,
          (stripSuffixLoop fuel table (core.take (core.length - s.length))).2))

/-- Loop of decompose_root_segments, parameterised by the root-pattern
table and a fuel bound; returns the texts of the emitted Root morphemes.
While the remainder is nonempty: take the first pattern the remainder
starts with (breaking explicitly on a zero-length match), else if at most
four characters remain emit them all, else chunk off four characters. -/
def decomposeRootLoop : Nat → List (List Char) → List Char → List (List Char)
  | 0, _, _ => []
  | fuel + 1, table, remainder =>
    if remainder = [] then []
    else
      match table.find? (fun cand => startsWithL remainder cand) with
      | some p =>
        if p.length = 0 then []
        else p :: decomposeRootLoop fuel table (remainder.drop p.length)
      | none =>
        if remainder.length ≤ 4 then [remainder]
        else remainder.take 4 :: decomposeRootLoop fuel table (remainder.drop 4)

/-- Function decompose_root_segments from src/main.rs (with the Morpheme
wrapping applied to the texts produced by the loop). -/
def decompose_root_segments (core : List Char) : List Morpheme :=
  if core = [] then []
  else
    (decomposeRootLoop (core.length + 1) ROOT_PATTERNS core).map
      (fun t => Morpheme.mk MorphemeKind.Root t)

/-- Prefix-stripping phase of segment_into_morphemes with the static table
and sufficient fuel. -/
def prefixPhase (cleaned : List Char) : List (List Char) × List Char :=
  stripPrefixLoop (cleaned.length + 1) PREFIXES cleaned

/-- Suffix-stripping phase of segment_into_morphemes with the static table
and sufficient fuel. -/
def suffixPhase (working : List Char) : List (List Char) × List Char :=
  stripSuffixLoop (working.length + 1) SUFFIXES working

/-- Function segment_into_morphemes from src/main.rs: clean the word,
strip prefixes from the front, strip suffixes from the back, decompose the
remaining core into roots (falling back to the core, or to the whole
cleaned word, as a single root when decomposition is empty), and emit
prefixes, then roots, then the suffixes in reversed strip order. -/
def segment_into_morphemes (word : List Char) : List Morpheme :=
  let cleaned := cleanWord word
  if cleaned = [] then []
  else
    let pr := prefixPhase cleaned
    let sr := suffixPhase pr.2
    let segments := pr.1.map (fun t => Morpheme.mk MorphemeKind.Pfx t)
    let roots0 := decompose_root_segments sr.2
    let roots :=
      if roots0 = [] then
        if sr.2 ≠ [] then [Morpheme.mk MorphemeKind.Root sr.2]
        else [Morpheme.mk MorphemeKind.Root cleaned]
      else roots0
    segments ++ roots ++ (sr.1.reverse.map (fun t => Morpheme.mk MorphemeKind.Sfx t))

/-- Rust str::split on non-ASCII-letter characters: the runs of characters
between separator characters, empty runs included (as str::split yields
them). -/
def splitOnNonAlpha : List Char → List (List Char)
  | [] => [[]]
  | c :: cs =>
    let rest := splitOnNonAlpha cs
    if isAsciiAlphabetic c then
      match rest with
      | [] => [[c]]
      | t :: ts => (c :: t) :: ts
    else
      [] :: rest

/-- Tokenisation step of definition_to_features: split on non-ASCII-letter
characters, discard empty tokens, lowercase each token. -/
def tokensOf (definition : List Char) : List (List Char) :=
  ((splitOnNonAlpha definition).filter (fun t => t ≠ [])).map
    (List.map toAsciiLowercase)

/-- Function definition_to_features from src/main.rs, with the f32
arithmetic modelled over the rationals.  The five components are
word count, average word length, sensory ratio, abstract ratio and
lexical density. -/
def definition_to_features (definition : List Char) : List ℚ :=
  let tokens := tokensOf definition
  if tokens = [] then List.replicate 5 0
  else
    let word_count : ℚ := tokens.length
    let total_chars : ℚ := (tokens.map List.length).sum
    let avg_word_length : ℚ := total_chars / word_count
    let sensory_hits : ℚ :=
      (tokens.filter (fun t => SENSORY_KEYWORDS.contains t)).length
    let abstract_hits : ℚ :=
      (tokens.filter (fun t => ABSTRACT_KEYWORDS.contains t)).length
    let unique_tokens : ℚ := tokens.dedup.length
    let multi_syllable_estimate : ℚ :=
      (tokens.filter (fun t => 7 ≤ t.length)).length
    [word_count,
     avg_word_length,
     sensory_hits / word_count,
     abstract_hits / word_count,
     unique_tokens / max word_count 1 + multi_syllable_estimate / word_count]

/-- Struct EmbeddingAccumulator from src/main.rs, over the rational model
of f32. -/
structure EmbeddingAccumulator where
  sum : List ℚ
  count : Nat
deriving DecidableEq

/-- Constructor EmbeddingAccumulator::new. -/
def EmbeddingAccumulator.new (dimensions : Nat) : EmbeddingAccumulator :=
  ⟨List.replicate dimensions 0, 0⟩

/-- Rust Vec::resize: pad with the given element up to the new length, or
truncate down to it. -/
def vecResize (l : List ℚ) (n : Nat) (x : ℚ) : List ℚ :=
  if l.length ≤ n then l ++ List.replicate (n - l.length) x else l.take n

/-- Method EmbeddingAccumulator::add: resize the sum to the incoming
vector's length when the lengths differ, add element-wise over the zip,
and increment the count. -/
def EmbeddingAccumulator.add (acc : EmbeddingAccumulator) (vector : List ℚ) :
    EmbeddingAccumulator :=
  let s := if acc.sum.length ≠ vector.length
    then vecResize acc.sum vector.length 0 else acc.sum
  ⟨List.zipWith (fun a b => a + b) s vector, acc.count + 1⟩

/-- Method EmbeddingAccumulator::mean: the zero vector of the stored
dimension when the count is zero, else the element-wise sum divided by the
count. -/
def EmbeddingAccumulator.mean (acc : EmbeddingAccumulator) : List ℚ :=
  if acc.count = 0 then List.replicate acc.sum.length 0
  else acc.sum.map (fun v => v / (acc.count : ℚ))

/-- Struct MorphemeKey from src/main.rs. -/
structure MorphemeKey where
  kind : MorphemeKind
  text : List Char
deriving DecidableEq

/-- Discriminant order of the MorphemeKind enum declaration, which the
derived Rust Ord instance compares by. -/
def MorphemeKind.toIdx : MorphemeKind → Nat
  | MorphemeKind.Pfx => 0
  | MorphemeKind.Root => 1
  | MorphemeKind.Sfx => 2

/-- Derived Ord on MorphemeKind: by declaration order of the enum. -/
def kindCmp (a b : MorphemeKind) : Ordering :=
  compare a.toIdx b.toIdx

/-- Derived Ord on str restricted to the texts occurring here:
lexicographic comparison of the character codes. -/
def textCmp : List Char → List Char → Ordering
  | [], [] => Ordering.eq
  | [], _ :: _ => Ordering.lt
  | _ :: _, [] => Ordering.gt
  | a :: xs, b :: ys =>
    match compare a.toNat b.toNat with
    | Ordering.eq => textCmp xs ys
    | o => o

/-- Derived Ord on MorphemeKey: by kind first, then by text, exactly the
comparator passed to the final sort in main. -/
def keyCmp (a b : MorphemeKey) : Ordering :=
  match kindCmp a.kind b.kind with
  | Ordering.eq => textCmp a.text b.text
  | o => o

/-- Ordering relation used by the final sort of main on the listed
(key, mean-vector) pairs: Rust sort_by with keyCmp puts a before b
whenever the comparison is not gt. -/
def pairLE (x y : MorphemeKey × List ℚ) : Prop :=
  (keyCmp x.1 y.1).isLE = true

instance (x y : MorphemeKey × List ℚ) : Decidable (pairLE x y) :=
  instDecidableEqBool (keyCmp x.1 y.1).isLE true

/-! Helper lemmas about the matching primitives. -/

/-- Characterisation of startsWithL: the pattern followed by some tail
gives back the string. -/
theorem startsWithL_iff (l pat : List Char) :
    startsWithL l pat = true ↔ ∃ t, l = pat ++ t := by
  induction pat generalizing l with
  | nil =>
    simp [startsWithL]
  | cons p ps ih =>
    cases l with
    | nil =>
      simp [startsWithL]
    | cons c cs =>
      simp only [startsWithL, Bool.and_eq_true, decide_eq_true_eq, ih,
        List.cons_append, List.cons.injEq]
      constructor
      · rintro ⟨rfl, t, rfl⟩
        exact ⟨t, rfl, rfl⟩
      · rintro ⟨t, rfl, rfl⟩
        exact ⟨rfl, t, rfl⟩

/-- Characterisation of endsWithL: some front part followed by the pattern
gives back the string. -/
theorem endsWithL_iff (l pat : List Char) :
    endsWithL l pat = true ↔ ∃ t, l = t ++ pat := by
  unfold endsWithL
  rw [startsWithL_iff]
  constructor
  · rintro ⟨t, ht⟩
    refine ⟨t.reverse, ?_⟩
    have h := congrArg List.reverse ht
    simpa using h
  · rintro ⟨t, rfl⟩
    exact ⟨t.reverse, by simp⟩

/-- Every entry of the static prefix table is nonempty. -/
theorem PREFIXES_ne : ∀ p ∈ PREFIXES, p ≠ [] := by decide

/-- Every entry of the static suffix table is nonempty. -/
theorem SUFFIXES_ne : ∀ s ∈ SUFFIXES, s ≠ [] := by decide

/-- Every entry of the static root-pattern table is nonempty. -/
theorem ROOT_PATTERNS_ne : ∀ r ∈ ROOT_PATTERNS, r ≠ [] := by decide

/-! Structural lemmas about the three loops. -/

/-- The recorded prefixes concatenated with the final working string give
back the input string, for any fuel and any table. -/
theorem stripPrefixLoop_flatten (f : Nat) (T : List (List Char)) (w : List Char) :
    (stripPrefixLoop f T w).1.flatten ++ (stripPrefixLoop f T w).2 = w := by
  induction f generalizing w with
  | zero => simp [stripPrefixLoop]
  | succ f ih =>
    simp only [stripPrefixLoop]
    cases hfind : T.find? (fun cand => startsWithL w cand) with
    | none => simp
    | some p =>
      by_cases hlen : w.length ≤ p.length
      · simp [hlen]
      · simp only [if_neg hlen, List.flatten_cons, List.append_assoc]
        rw [ih]
        obtain ⟨t, rfl⟩ := (startsWithL_iff w p).mp (List.find?_some hfind)
        rw [List.drop_left]

/-- The prefix loop never empties the working string. -/
theorem stripPrefixLoop_ne (f : Nat) (T : List (List Char)) (w : List Char)
    (hw : w ≠ []) : (stripPrefixLoop f T w).2 ≠ [] := by
  induction f generalizing w with
  | zero => simpa [stripPrefixLoop] using hw
  | succ f ih =>
    simp only [stripPrefixLoop]
    cases hfind : T.find? (fun cand => startsWithL w cand) with
    | none => simpa using hw
    | some p =>
      by_cases hlen : w.length ≤ p.length
      · simpa [hlen] using hw
      · simp only [if_neg hlen]
        apply ih
        have : p.length < w.length := Nat.lt_of_not_le hlen
        have hpos : 0 < (w.drop p.length).length := by
          rw [List.length_drop]; omega
        exact List.ne_nil_of_length_pos hpos

/-- The final core concatenated with the reversed recorded suffixes gives
back the input string, for any fuel and any table. -/
theorem stripSuffixLoop_flatten (f : Nat) (T : List (List Char)) (w : List Char) :
    (stripSuffixLoop f T w).2 ++ ((stripSuffixLoop f T w).1.reverse).flatten = w := by
  induction f generalizing w with
  | zero => simp [stripSuffixLoop]
  | succ f ih =>
    simp only [stripSuffixLoop]
    cases hfind : T.find? (fun cand => endsWithL w cand) with
    | none => simp
    | some s =>
      by_cases hlen : w.length ≤ s.length
      · simp [hlen]
      · simp only [if_neg hlen, List.reverse_cons, List.flatten_append,
          List.flatten_cons, List.flatten_nil, List.append_nil,
          ← List.append_assoc]
        rw [ih]
        obtain ⟨t, rfl⟩ := (endsWithL_iff w s).mp (List.find?_some hfind)
        have hts : (t ++ s).length - s.length = t.length := by
          rw [List.length_append]; omega
        rw [hts, List.take_left]

/-- The suffix loop never empties the core. -/
theorem stripSuffixLoop_ne (f : Nat) (T : List (List Char)) (w : List Char)
    (hw : w ≠ []) : (stripSuffixLoop f T w).2 ≠ [] := by
  induction f generalizing w with
  | zero => simpa [stripSuffixLoop] using hw
  | succ f ih =>
    simp only [stripSuffixLoop]
    cases hfind : T.find? (fun cand => endsWithL w cand) with
    | none => simpa using hw
    | some s =>
      by_cases hlen : w.length ≤ s.length
      · simpa [hlen] using hw
      · simp only [if_neg hlen]
        apply ih
        have : s.length < w.length := Nat.lt_of_not_le hlen
        have hpos : 0 < (w.take (w.length - s.length)).length := by
          rw [List.length_take]; omega
        exact List.ne_nil_of_length_pos hpos

/-- With a table of nonempty patterns and sufficient fuel, the root chunks
concatenate back to the decomposed string. -/
theorem decomposeRootLoop_flatten (f : Nat) (T : List (List Char))
    (hT : ∀ r ∈ T, r ≠ []) (w : List Char) (hf : w.length < f) :
    (decomposeRootLoop f T w).flatten = w := by
  induction f generalizing w with
  | zero => omega
  | succ f ih =>
    simp only [decomposeRootLoop]
    by_cases hw : w = []
    · simp [hw]
    · simp only [if_neg hw]
      cases hfind : T.find? (fun cand => startsWithL w cand) with
      | none =>
        by_cases h4 : w.length ≤ 4
        · simp [h4]
        · simp only [if_neg h4, List.flatten_cons]
          rw [ih]
          · exact List.take_append_drop 4 w
          · rw [List.length_drop]; omega
      | some p =>
        have hpne := hT p (List.mem_of_find?_eq_some hfind)
        have hppos : 0 < p.length := List.length_pos.mpr hpne
        have h0 : ¬ p.length = 0 := by omega
        have hwpos : 0 < w.length := List.length_pos.mpr hw
        simp only [if_neg h0, List.flatten_cons]
        rw [ih _ (by rw [List.length_drop]; omega)]
        obtain ⟨t, rfl⟩ := (startsWithL_iff w p).mp (List.find?_some hfind)
        rw [List.drop_left]

/-- With a table of nonempty patterns, positive fuel and a nonempty
string, root decomposition emits at least one chunk. -/
theorem decomposeRootLoop_ne (f : Nat) (T : List (List Char))
    (hT : ∀ r ∈ T, r ≠ []) (w : List Char) (hw : w ≠ []) (hf : 0 < f) :
    decomposeRootLoop f T w ≠ [] := by
  cases f with
  | zero => omega
  | succ f =>
    simp only [decomposeRootLoop, if_neg hw]
    cases hfind : T.find? (fun cand => startsWithL w cand) with
    | none =>
      by_cases h4 : w.length ≤ 4 <;> simp [h4]
    | some p =>
      have hpne := hT p (List.mem_of_find?_eq_some hfind)
      have hppos : 0 < p.length := List.length_pos.mpr hpne
      simp [Nat.ne_of_gt hppos]

/-! Fuel stability: with tables of nonempty patterns, any fuel exceeding
the input length yields the same result, which is the termination argument
for the Rust loops. -/

/-- Fuel stability of the prefix loop over tables of nonempty patterns. -/
theorem stripPrefixLoop_stable (T : List (List Char)) (hT : ∀ p ∈ T, p ≠ []) :
    ∀ (f g : Nat) (w : List Char), w.length < f → w.length < g →
      stripPrefixLoop f T w = stripPrefixLoop g T w := by
  intro f
  induction f with
  | zero => intro g w hf _; omega
  | succ f ih =>
    intro g w hf hg
    cases g with
    | zero => omega
    | succ g =>
      simp only [stripPrefixLoop]
      cases hfind : T.find? (fun cand => startsWithL w cand) with
      | none => rfl
      | some p =>
        by_cases hlen : w.length ≤ p.length
        · simp [hlen]
        · simp only [if_neg hlen]
          have hppos : 0 < p.length :=
            List.length_pos.mpr (hT p (List.mem_of_find?_eq_some hfind))
          have hd : (w.drop p.length).length < f := by
            rw [List.length_drop]; omega
          have hd2 : (w.drop p.length).length < g := by
            rw [List.length_drop]; omega
          rw [ih g (w.drop p.length) hd hd2]

/-- Fuel stability of the suffix loop over tables of nonempty patterns. -/
theorem stripSuffixLoop_stable (T : List (List Char)) (hT : ∀ s ∈ T, s ≠ []) :
    ∀ (f g : Nat) (w : List Char), w.length < f → w.length < g →
      stripSuffixLoop f T w = stripSuffixLoop g T w := by
  intro f
  induction f with
  | zero => intro g w hf _; omega
  | succ f ih =>
    intro g w hf hg
    cases g with
    | zero => omega
    | succ g =>
      simp only [stripSuffixLoop]
      cases hfind : T.find? (fun cand => endsWithL w cand) with
      | none => rfl
      | some s =>
        by_cases hlen : w.length ≤ s.length
        · simp [hlen]
        · simp only [if_neg hlen]
          have hspos : 0 < s.length :=
            List.length_pos.mpr (hT s (List.mem_of_find?_eq_some hfind))
          have hd : (w.take (w.length - s.length)).length < f := by
            rw [List.length_take]; omega
          have hd2 : (w.take (w.length - s.length)).length < g := by
            rw [List.length_take]; omega
          rw [ih g (w.take (w.length - s.length)) hd hd2]

/-- Fuel stability of the root-decomposition loop over tables of nonempty
patterns. -/
theorem decomposeRootLoop_stable (T : List (List Char)) (hT : ∀ r ∈ T, r ≠ []) :
    ∀ (f g : Nat) (w : List Char), w.length < f → w.length < g →
      decomposeRootLoop f T w = decomposeRootLoop g T w := by
  intro f
  induction f with
  | zero => intro g w hf _; omega
  | succ f ih =>
    intro g w hf hg
    cases g with
    | zero => omega
    | succ g =>
      simp only [decomposeRootLoop]
      by_cases hw : w = []
      · simp [hw]
      · simp only [if_neg hw]
        have hwpos : 0 < w.length := List.length_pos.mpr hw
        cases hfind : T.find? (fun cand => startsWithL w cand) with
        | none =>
          by_cases h4 : w.length ≤ 4
          · simp [h4]
          · simp only [if_neg h4]
            rw [ih g (w.drop 4) (by rw [List.length_drop]; omega)
              (by rw [List.length_drop]; omega)]
        | some p =>
          have hppos : 0 < p.length :=
            List.length_pos.mpr (hT p (List.mem_of_find?_eq_some hfind))
          have h0 : ¬ p.length = 0 := by omega
          simp only [if_neg h0]
          rw [ih g (w.drop p.length) (by rw [List.length_drop]; omega)
            (by rw [List.length_drop]; omega)]

/-! Lemmas about the assembled segmentation. -/

/-- Root decomposition of a nonempty core is nonempty. -/
theorem decompose_root_segments_ne (core : List Char) (h : core ≠ []) :
    decompose_root_segments core ≠ [] := by
  unfold decompose_root_segments
  rw [if_neg h]
  intro hmap
  exact decomposeRootLoop_ne (core.length + 1) ROOT_PATTERNS ROOT_PATTERNS_ne
    core h (Nat.succ_pos _) (List.map_eq_nil_iff.mp hmap)

/-- Every morpheme emitted by root decomposition is tagged Root. -/
theorem decompose_root_segments_kind (core : List Char) :
    ∀ m ∈ decompose_root_segments core, m.kind = MorphemeKind.Root := by
  unfold decompose_root_segments
  split
  · simp
  · intro m hm
    obtain ⟨t, _, rfl⟩ := List.mem_map.mp hm
    rfl

/-- The texts of the emitted root morphemes concatenate back to the
core. -/
theorem decompose_root_segments_flatten (core : List Char) :
    ((decompose_root_segments core).map Morpheme.text).flatten = core := by
  unfold decompose_root_segments
  by_cases h : core = []
  · simp [h]
  · rw [if_neg h, List.map_map]
    have hmap : (Morpheme.text ∘ fun t => Morpheme.mk MorphemeKind.Root t)
        = id := rfl
    rw [hmap, List.map_id]
    exact decomposeRootLoop_flatten (core.length + 1) ROOT_PATTERNS
      ROOT_PATTERNS_ne core (Nat.lt_succ_self _)

/-- Shape of segment_into_morphemes on a word with nonempty cleaned form:
prefixes in strip order, then the root decomposition of the surviving
core, then the suffixes in reversed strip order. -/
theorem segment_eq (word : List Char) (h : cleanWord word ≠ []) :
    segment_into_morphemes word =
      (prefixPhase (cleanWord word)).1.map
          (fun t => Morpheme.mk MorphemeKind.Pfx t)
        ++ decompose_root_segments (suffixPhase (prefixPhase (cleanWord word)).2).2
        ++ ((suffixPhase (prefixPhase (cleanWord word)).2).1.reverse.map
              (fun t => Morpheme.mk MorphemeKind.Sfx t)) := by
  have h2 : (prefixPhase (cleanWord word)).2 ≠ [] :=
    stripPrefixLoop_ne _ _ _ h
  have h3 : (suffixPhase (prefixPhase (cleanWord word)).2).2 ≠ [] :=
    stripSuffixLoop_ne _ _ _ h2
  have h4 := decompose_root_segments_ne _ h3
  unfold segment_into_morphemes
  simp only [if_neg h, if_neg h4]

/-- The texts of all emitted morphemes concatenate back to the cleaned
word. -/
theorem segment_texts_flatten (word : List Char) (h : cleanWord word ≠ []) :
    ((segment_into_morphemes word).map Morpheme.text).flatten = cleanWord word := by
  rw [segment_eq word h]
  simp only [List.map_append, List.map_map, List.flatten_append]
  have hp : (Morpheme.text ∘ fun t => Morpheme.mk MorphemeKind.Pfx t) = id := rfl
  have hs : (Morpheme.text ∘ fun t => Morpheme.mk MorphemeKind.Sfx t) = id := rfl
  rw [hp, hs, List.map_id, List.map_id]
  rw [decompose_root_segments_flatten]
  unfold prefixPhase suffixPhase
  rw [List.append_assoc, stripSuffixLoop_flatten, stripPrefixLoop_flatten]

/-! Order-theoretic lemmas about the key comparator. -/

/-- Characters with equal code points are equal. -/
theorem charToNat_inj (a b : Char) (h : a.toNat = b.toNat) : a = b := by
  have h2 := congrArg Char.ofNat h
  rwa [Char.ofNat_toNat, Char.ofNat_toNat] at h2

/-- The empty text compares below or equal to every text. -/
theorem textCmp_nil_le (c : List Char) : (textCmp [] c).isLE = true := by
  cases c <;> rfl

/-- textCmp detects equality exactly. -/
theorem textCmp_eq_iff (a b : List Char) : textCmp a b = Ordering.eq ↔ a = b := by
  induction a generalizing b with
  | nil => cases b <;> simp [textCmp]
  | cons x xs ih =>
    cases b with
    | nil => simp [textCmp]
    | cons y ys =>
      simp only [textCmp]
      cases hc : compare x.toNat y.toNat with
      | eq =>
        have hxy : x = y := charToNat_inj x y (Nat.compare_eq_eq.mp hc)
        simp [hxy, ih]
      | lt =>
        have hlt := Nat.compare_eq_lt.mp hc
        have hne : x ≠ y := fun he => by subst he; omega
        simp [hne]
      | gt =>
        have hgt := Nat.compare_eq_gt.mp hc
        have hne : x ≠ y := fun he => by subst he; omega
        simp [hne]

/-- textCmp is antisymmetric in the Ordering.swap sense. -/
theorem textCmp_swap (a b : List Char) : textCmp b a = (textCmp a b).swap := by
  induction a generalizing b with
  | nil => cases b <;> rfl
  | cons x xs ih =>
    cases b with
    | nil => rfl
    | cons y ys =>
      simp only [textCmp]
      cases hc : compare x.toNat y.toNat with
      | eq =>
        have he := Nat.compare_eq_eq.mp hc
        have h2 : compare y.toNat x.toNat = Ordering.eq :=
          Nat.compare_eq_eq.mpr he.symm
        rw [h2]
        exact ih ys
      | lt =>
        have hlt := Nat.compare_eq_lt.mp hc
        have h2 : compare y.toNat x.toNat = Ordering.gt :=
          Nat.compare_eq_gt.mpr hlt
        rw [h2]
        rfl
      | gt =>
        have hgt := Nat.compare_eq_gt.mp hc
        have h2 : compare y.toNat x.toNat = Ordering.lt :=
          Nat.compare_eq_lt.mpr hgt
        rw [h2]
        rfl

/-- textCmp is transitive on the non-gt relation. -/
theorem textCmp_le_trans :
    ∀ (a b c : List Char), (textCmp a b).isLE = true →
      (textCmp b c).isLE = true → (textCmp a c).isLE = true := by
  intro a
  induction a with
  | nil => intro b c _ _; exact textCmp_nil_le c
  | cons x xs ih =>
    intro b c hab hbc
    cases b with
    | nil => exact Bool.noConfusion hab
    | cons y ys =>
      cases c with
      | nil => exact Bool.noConfusion hbc
      | cons z zs =>
        simp only [textCmp] at hab hbc ⊢
        rcases hxy : compare x.toNat y.toNat with _ | _ | _ <;>
          rw [hxy] at hab <;>
          rcases hyz : compare y.toNat z.toNat with _ | _ | _ <;>
          rw [hyz] at hbc
        · have h1 := Nat.compare_eq_lt.mp hxy
          have h2 := Nat.compare_eq_lt.mp hyz
          rw [Nat.compare_eq_lt.mpr (by omega)]
          rfl
        · have h1 := Nat.compare_eq_lt.mp hxy
          have h2 := Nat.compare_eq_eq.mp hyz
          rw [Nat.compare_eq_lt.mpr (by omega)]
          rfl
        · exact Bool.noConfusion hbc
        · have h1 := Nat.compare_eq_eq.mp hxy
          have h2 := Nat.compare_eq_lt.mp hyz
          rw [Nat.compare_eq_lt.mpr (by omega)]
          rfl
        · have h1 := Nat.compare_eq_eq.mp hxy
          have h2 := Nat.compare_eq_eq.mp hyz
          rw [Nat.compare_eq_eq.mpr (by omega)]
          exact ih ys zs hab hbc
        · exact Bool.noConfusion hbc
        · exact Bool.noConfusion hab
        · exact Bool.noConfusion hab
        · exact Bool.noConfusion hab

/-- kindCmp detects equality exactly. -/
theorem kindCmp_eq_iff : ∀ a b : MorphemeKind,
    kindCmp a b = Ordering.eq ↔ a = b := by
  intro a b; cases a <;> cases b <;> decide

/-- kindCmp is antisymmetric in the Ordering.swap sense. -/
theorem kindCmp_swap : ∀ a b : MorphemeKind,
    kindCmp b a = (kindCmp a b).swap := by
  intro a b; cases a <;> cases b <;> decide

/-- kindCmp strict order is transitive. -/
theorem kindCmp_lt_trans : ∀ a b c : MorphemeKind,
    kindCmp a b = Ordering.lt → kindCmp b c = Ordering.lt →
      kindCmp a c = Ordering.lt := by
  intro a b c; cases a <;> cases b <;> cases c <;> decide

/-- keyCmp detects equality exactly. -/
theorem keyCmp_eq_iff (a b : MorphemeKey) : keyCmp a b = Ordering.eq ↔ a = b := by
  obtain ⟨ka, ta⟩ := a
  obtain ⟨kb, tb⟩ := b
  simp only [keyCmp]
  cases hk : kindCmp ka kb with
  | eq =>
    have hke : ka = kb := (kindCmp_eq_iff ka kb).mp hk
    subst hke
    simp [textCmp_eq_iff, MorphemeKey.mk.injEq]
  | lt =>
    constructor
    · intro h; exact Ordering.noConfusion h
    · intro h
      cases h
      have h2 := (kindCmp_eq_iff ka ka).mpr rfl
      rw [hk] at h2
      exact Ordering.noConfusion h2
  | gt =>
    constructor
    · intro h; exact Ordering.noConfusion h
    · intro h
      cases h
      have h2 := (kindCmp_eq_iff ka ka).mpr rfl
      rw [hk] at h2
      exact Ordering.noConfusion h2

/-- keyCmp is antisymmetric in the Ordering.swap sense. -/
theorem keyCmp_swap (a b : MorphemeKey) : keyCmp b a = (keyCmp a b).swap := by
  obtain ⟨ka, ta⟩ := a
  obtain ⟨kb, tb⟩ := b
  simp only [keyCmp]
  rw [kindCmp_swap ka kb]
  cases kindCmp ka kb with
  | eq => exact textCmp_swap ta tb
  | lt => rfl
  | gt => rfl

/-- keyCmp non-gt is transitive. -/
theorem keyCmp_le_trans (a b c : MorphemeKey)
    (hab : (keyCmp a b).isLE = true) (hbc : (keyCmp b c).isLE = true) :
    (keyCmp a c).isLE = true := by
  obtain ⟨ka, ta⟩ := a
  obtain ⟨kb, tb⟩ := b
  obtain ⟨kc, tc⟩ := c
  simp only [keyCmp] at hab hbc ⊢
  rcases hk1 : kindCmp ka kb with _ | _ | _ <;> rw [hk1] at hab <;>
    rcases hk2 : kindCmp kb kc with _ | _ | _ <;> rw [hk2] at hbc
  · rw [kindCmp_lt_trans ka kb kc hk1 hk2]; rfl
  · have he := (kindCmp_eq_iff kb kc).mp hk2
    subst he
    rw [hk1]; rfl
  · exact Bool.noConfusion hbc
  · have he := (kindCmp_eq_iff ka kb).mp hk1
    subst he
    rw [hk2]; rfl
  · have he := (kindCmp_eq_iff ka kb).mp hk1
    subst he
    rw [hk2]
    exact textCmp_le_trans ta tb tc hab hbc
  · exact Bool.noConfusion hbc
  · exact Bool.noConfusion hab
  · exact Bool.noConfusion hab
  · exact Bool.noConfusion hab

/-- keyCmp non-gt is total. -/
theorem keyCmp_le_total (a b : MorphemeKey) :
    ((keyCmp a b).isLE || (keyCmp b a).isLE) = true := by
  rw [keyCmp_swap a b]
  cases keyCmp a b <;> rfl

/-- Mutually non-gt keys are equal. -/
theorem keyCmp_le_antisymm (a b : MorphemeKey)
    (h1 : (keyCmp a b).isLE = true) (h2 : (keyCmp b a).isLE = true) : a = b := by
  rw [keyCmp_swap a b] at h2
  cases hh : keyCmp a b with
  | eq => exact (keyCmp_eq_iff a b).mp hh
  | lt => rw [hh] at h2; exact Bool.noConfusion h2
  | gt => rw [hh] at h1; exact Bool.noConfusion h1

/-! Final listing: the sort in main and its determinism. -/

/-- Model of the final sort in main: sort the collected (key, mean)
pairs by the derived MorphemeKey order. -/
def sortListing (l : List (MorphemeKey × List ℚ)) : List (MorphemeKey × List ℚ) :=
  l.mergeSort (fun x y => (keyCmp x.1 y.1).isLE)

/-- The sorted listing is ordered by the key comparator. -/
theorem sortListing_sorted (l : List (MorphemeKey × List ℚ)) :
    (sortListing l).Pairwise pairLE := by
  have h := List.sorted_mergeSort
    (fun a b c hab hbc => keyCmp_le_trans a.1 b.1 c.1 hab hbc)
    (fun a b => keyCmp_le_total a.1 b.1) l
  exact h

/-- The sorted listing is a permutation of the input pairs. -/
theorem sortListing_perm (l : List (MorphemeKey × List ℚ)) :
    List.Perm (sortListing l) l :=
  List.mergeSort_perm l _

/-- Two sorted permutations of the same pair list with pairwise-distinct
keys coincide. -/
theorem listing_unique (s1 s2 : List (MorphemeKey × List ℚ))
    (hp : List.Perm s1 s2) (h1 : s1.Pairwise pairLE) (h2 : s2.Pairwise pairLE)
    (hnd : (s1.map Prod.fst).Nodup) : s1 = s2 := by
  have hnd2 : (s2.map Prod.fst).Nodup := (hp.map Prod.fst).nodup hnd
  have hne1 : s1.Pairwise (fun x y => x.1 ≠ y.1) := List.pairwise_map.mp hnd
  have hne2 : s2.Pairwise (fun x y => x.1 ≠ y.1) := List.pairwise_map.mp hnd2
  haveI : IsAntisymm (MorphemeKey × List ℚ)
      (fun x y => pairLE x y ∧ x.1 ≠ y.1) := by
    constructor
    rintro x y ⟨hxy, hne⟩ ⟨hyx, _⟩
    exact (hne (keyCmp_le_antisymm x.1 y.1 hxy hyx)).elim
  exact List.eq_of_perm_of_sorted hp (h1.and hne1) (h2.and hne2)

/-! Lemmas about the accumulator. -/

/-- Resizing fixes the length to the target. -/
theorem vecResize_length (l : List ℚ) (n : Nat) (x : ℚ) :
    (vecResize l n x).length = n := by
  unfold vecResize
  by_cases h : l.length ≤ n
  · rw [if_pos h]
    simp only [List.length_append, List.length_replicate]
    omega
  · rw [if_neg h, List.length_take]
    omega

/-- Resizing a zero vector yields the zero vector of the target length. -/
theorem vecResize_replicate (d n : Nat) :
    vecResize (List.replicate d (0 : ℚ)) n 0 = List.replicate n 0 := by
  unfold vecResize
  simp only [List.length_replicate]
  by_cases h : d ≤ n
  · rw [if_pos h, ← List.replicate_add, Nat.add_sub_cancel' h]
  · rw [if_neg h, List.take_replicate, Nat.min_eq_left (by omega)]

/-- Adding a vector element-wise onto a matching zero vector returns the
vector. -/
theorem zipWith_add_replicate (v : List ℚ) :
    List.zipWith (fun a b => a + b) (List.replicate v.length 0) v = v := by
  induction v with
  | nil => rfl
  | cons x xs ih => simp [List.replicate_succ, ih]

/-- The first add into a fresh accumulator stores the vector with
count one, whatever the creation dimension was. -/
theorem add_new (d : Nat) (v : List ℚ) :
    (EmbeddingAccumulator.new d).add v = ⟨v, 1⟩ := by
  unfold EmbeddingAccumulator.new EmbeddingAccumulator.add
  have hsum : (if (List.replicate d (0 : ℚ)).length ≠ v.length
      then vecResize (List.replicate d (0 : ℚ)) v.length 0
      else List.replicate d (0 : ℚ)) = List.replicate v.length 0 := by
    split
    · exact vecResize_replicate d v.length
    · next h =>
      have hd : d = v.length := by
        have h2 := not_ne_iff.mp h
        simpa using h2
      rw [hd]
  simp only [hsum, zipWith_add_replicate]

/-- Adding a vector of the stored dimension performs a plain element-wise
addition. -/
theorem add_same_length (acc : EmbeddingAccumulator) (v : List ℚ)
    (h : acc.sum.length = v.length) :
    acc.add v = ⟨List.zipWith (fun a b => a + b) acc.sum v, acc.count + 1⟩ := by
  unfold EmbeddingAccumulator.add
  simp [h]

/-! Claim theorems. -/

/-- C1: segment_into_morphemes returns an empty sequence if and only if
the cleaned word is empty, and every word with nonempty cleaned form
produces at least one morpheme, at least one of which is a Root. -/
theorem segmentation_empty_iff_root (word : List Char) :
    (segment_into_morphemes word = [] ↔ cleanWord word = []) ∧
    (cleanWord word ≠ [] →
      ∃ m ∈ segment_into_morphemes word, m.kind = MorphemeKind.Root) := by
  have hroot : cleanWord word ≠ [] →
      ∃ m ∈ segment_into_morphemes word, m.kind = MorphemeKind.Root := by
    intro h
    rw [segment_eq word h]
    have h2 : (prefixPhase (cleanWord word)).2 ≠ [] :=
      stripPrefixLoop_ne _ _ _ h
    have h3 : (suffixPhase (prefixPhase (cleanWord word)).2).2 ≠ [] :=
      stripSuffixLoop_ne _ _ _ h2
    have h4 := decompose_root_segments_ne _ h3
    obtain ⟨m, hm⟩ := List.exists_mem_of_ne_nil _ h4
    exact ⟨m, by simp [List.mem_append, hm],
      decompose_root_segments_kind _ m hm⟩
  refine ⟨⟨?_, ?_⟩, hroot⟩
  · intro hseg
    by_contra h
    obtain ⟨m, hm, _⟩ := hroot h
    rw [hseg] at hm
    exact List.not_mem_nil m hm
  · intro h
    unfold segment_into_morphemes
    simp [h]

/-- C1 witness at the word "ab". -/
theorem segmentation_empty_iff_root_witness :
    cleanWord ("ab".toList) ≠ [] ∧
    (∃ m ∈ segment_into_morphemes ("ab".toList),
      m.kind = MorphemeKind.Root) :=
  ⟨by decide, (segmentation_empty_iff_root ("ab".toList)).2 (by decide)⟩

/-- C2: on a word with nonempty cleaned form, the emitted sequence is
the stripped prefixes in strip order, then the root decomposition of the
surviving core, then the suffixes in reversed strip order; the prefix,
root and suffix texts tile the cleaned word, and the concatenated texts
are no longer than the cleaned word. -/
theorem segmentation_emission_order (word : List Char)
    (h : cleanWord word ≠ []) :
    segment_into_morphemes word =
      (prefixPhase (cleanWord word)).1.map
          (fun t => Morpheme.mk MorphemeKind.Pfx t)
        ++ decompose_root_segments
            (suffixPhase (prefixPhase (cleanWord word)).2).2
        ++ ((suffixPhase (prefixPhase (cleanWord word)).2).1.reverse.map
              (fun t => Morpheme.mk MorphemeKind.Sfx t)) ∧
    (prefixPhase (cleanWord word)).1.flatten
        ++ ((decompose_root_segments
              (suffixPhase (prefixPhase (cleanWord word)).2).2).map
                Morpheme.text).flatten
        ++ ((suffixPhase (prefixPhase (cleanWord word)).2).1.reverse).flatten
      = cleanWord word ∧
    ((segment_into_morphemes word).map Morpheme.text).flatten.length
      ≤ (cleanWord word).length := by
  refine ⟨segment_eq word h, ?_, ?_⟩
  · rw [decompose_root_segments_flatten]
    unfold prefixPhase suffixPhase
    rw [List.append_assoc, stripSuffixLoop_flatten, stripPrefixLoop_flatten]
  · rw [segment_texts_flatten word h]

/-- C2 witness at the word "dement". -/
theorem segmentation_emission_order_witness :
    cleanWord ("dement".toList) ≠ [] ∧
    ((segment_into_morphemes ("dement".toList)).map Morpheme.text).flatten.length
      ≤ (cleanWord ("dement".toList)).length :=
  ⟨by decide, (segmentation_emission_order _ (by decide)).2.2⟩

/-- C3: on a word with nonempty cleaned form, stripping never consumes a
whole remaining string: the working string after prefix stripping and the
core after suffix stripping are both nonempty. -/
theorem stripping_leaves_core (word : List Char) (h : cleanWord word ≠ []) :
    (prefixPhase (cleanWord word)).2 ≠ [] ∧
    (suffixPhase (prefixPhase (cleanWord word)).2).2 ≠ [] := by
  have h2 : (prefixPhase (cleanWord word)).2 ≠ [] :=
    stripPrefixLoop_ne _ _ _ h
  exact ⟨h2, stripSuffixLoop_ne _ _ _ h2⟩

/-- C3 witness at the word "antidisestablishmentarianism". -/
theorem stripping_leaves_core_witness :
    cleanWord ("antidisestablishmentarianism".toList) ≠ [] ∧
    (suffixPhase (prefixPhase
        (cleanWord ("antidisestablishmentarianism".toList))).2).2 ≠ [] :=
  ⟨by decide, (stripping_leaves_core _ (by decide)).2⟩

/-- C4 counterexample: adding a shorter vector truncates the stored sum
(Vec::resize shrinks), so the stored dimension is reduced and the second
accumulated component is discarded. -/
theorem accumulator_widening_counterexample :
    (((EmbeddingAccumulator.new 2).add [1, 2]).add [3]).sum = [4] ∧
    (((EmbeddingAccumulator.new 2).add [1, 2]).add [3]).sum.length
      < (((EmbeddingAccumulator.new 2).add [1, 2]).sum).length := by
  constructor
  · norm_num [EmbeddingAccumulator.new, EmbeddingAccumulator.add,
      vecResize, List.replicate]
  · norm_num [EmbeddingAccumulator.new, EmbeddingAccumulator.add,
      vecResize, List.replicate]

/-- C4 amended: add always sets the stored dimension to the incoming
vector's length; when the vector is at least as long as the sum the sum is
zero-padded before the element-wise addition, and when it is shorter the
sum is truncated to the vector's length; the count always increments. -/
theorem accumulator_add_resizes (acc : EmbeddingAccumulator) (v : List ℚ) :
    (acc.add v).sum.length = v.length ∧
    (acc.add v).count = acc.count + 1 ∧
    (acc.sum.length ≤ v.length →
      (acc.add v).sum = List.zipWith (fun a b => a + b)
        (acc.sum ++ List.replicate (v.length - acc.sum.length) 0) v) ∧
    (v.length < acc.sum.length →
      (acc.add v).sum
        = List.zipWith (fun a b => a + b) (acc.sum.take v.length) v) := by
  by_cases h : acc.sum.length = v.length
  · rw [add_same_length acc v h]
    refine ⟨?_, rfl, ?_, ?_⟩
    · simp [List.length_zipWith, h]
    · intro _
      simp [h]
    · intro hlt
      omega
  · have hadd : acc.add v = ⟨List.zipWith (fun a b => a + b)
        (vecResize acc.sum v.length 0) v, acc.count + 1⟩ := by
      unfold EmbeddingAccumulator.add
      simp [h]
    rw [hadd]
    refine ⟨?_, rfl, ?_, ?_⟩
    · simp [List.length_zipWith, vecResize_length]
    · intro hle
      unfold vecResize
      rw [if_pos hle]
    · intro hlt
      unfold vecResize
      rw [if_neg (by omega)]

/-- C4 amended witness: a shorter vector truncates a stored 2-dimensional
sum down to dimension 1. -/
theorem accumulator_add_resizes_witness :
    (([3] : List ℚ).length < ([1, 2] : List ℚ).length) ∧
    ((EmbeddingAccumulator.mk [1, 2] 1).add [3]).sum
      = List.zipWith (fun a b => a + b) (([1, 2] : List ℚ).take 1) [3] :=
  ⟨by decide,
    (accumulator_add_resizes ⟨[1, 2], 1⟩ [3]).2.2.2 (by decide)⟩

/-- C5 counterexample: the prefix and suffix stripping loops carry no
zero-length guard: with an empty pattern in the table each loop matches
and records the empty pattern repeatedly without consuming input. -/
theorem zero_guard_counterexample :
    stripPrefixLoop 2 [([] : List Char)] ['a', 'b'] = ([[], []], ['a', 'b']) ∧
    stripSuffixLoop 2 [([] : List Char)] ['a', 'b'] = ([[], []], ['a', 'b']) := by
  decide

/-- C5 amended: only the root-decomposition loop guards explicitly against
a zero-length pattern (breaking when one is found); the prefix and suffix
loops have no such guard, but every pattern in the static tables is
nonempty, so all three loops stabilise within input-length many
iterations, which is the termination of segment_into_morphemes. -/
theorem zero_guard_amended :
    (∀ p ∈ PREFIXES, p ≠ []) ∧
    (∀ s ∈ SUFFIXES, s ≠ []) ∧
    (∀ r ∈ ROOT_PATTERNS, r ≠ []) ∧
    (∀ (f : Nat) (T : List (List Char)) (rem : List Char), rem ≠ [] →
      T.find? (fun cand => startsWithL rem cand) = some [] →
      decomposeRootLoop (f + 1) T rem = []) ∧
    (∀ (f g : Nat) (w : List Char), w.length < f → w.length < g →
      stripPrefixLoop f PREFIXES w = stripPrefixLoop g PREFIXES w) ∧
    (∀ (f g : Nat) (w : List Char), w.length < f → w.length < g →
      stripSuffixLoop f SUFFIXES w = stripSuffixLoop g SUFFIXES w) ∧
    (∀ (f g : Nat) (w : List Char), w.length < f → w.length < g →
      decomposeRootLoop f ROOT_PATTERNS w = decomposeRootLoop g ROOT_PATTERNS w) := by
  refine ⟨PREFIXES_ne, SUFFIXES_ne, ROOT_PATTERNS_ne, ?_,
    stripPrefixLoop_stable PREFIXES PREFIXES_ne,
    stripSuffixLoop_stable SUFFIXES SUFFIXES_ne,
    decomposeRootLoop_stable ROOT_PATTERNS ROOT_PATTERNS_ne⟩
  intro f T rem hrem hfind
  simp [decomposeRootLoop, hrem, hfind]

/-- C5 amended witness: fuel stability of the prefix loop on "ab", and the
explicit zero-length break of the root loop on a degenerate table. -/
theorem zero_guard_amended_witness :
    (['a', 'b'].length < 3 ∧ ['a', 'b'].length < 9) ∧
    stripPrefixLoop 3 PREFIXES ['a', 'b'] = stripPrefixLoop 9 PREFIXES ['a', 'b'] ∧
    decomposeRootLoop 1 [([] : List Char)] ['a'] = [] :=
  ⟨⟨by decide, by decide⟩,
    zero_guard_amended.2.2.2.2.1 3 9 ['a', 'b'] (by decide) (by decide),
    zero_guard_amended.2.2.2.1 0 [([] : List Char)] ['a'] (by decide) (by decide)⟩

/-- C6: definition_to_features always returns a vector of exactly five
components, and when tokenisation yields no tokens it returns the zero
vector of dimension five. -/
theorem features_dimension_and_fallback (definition : List Char) :
    (definition_to_features definition).length = 5 ∧
    (tokensOf definition = [] →
      definition_to_features definition = List.replicate 5 0) := by
  constructor
  · unfold definition_to_features
    by_cases h : tokensOf definition = []
    · simp [h]
    · simp [h]
  · intro h
    unfold definition_to_features
    simp [h]

/-- C6 witness at a definition with no ASCII-letter tokens. -/
theorem features_dimension_and_fallback_witness :
    tokensOf ("1234!".toList) = [] ∧
    definition_to_features ("1234!".toList) = List.replicate 5 0 :=
  ⟨by decide,
    (features_dimension_and_fallback ("1234!".toList)).2 (by decide)⟩

/-- C7: the mean of a fresh accumulator after one add is the added vector,
and after adding two vectors of the creation dimension it is their
element-wise average. -/
theorem accumulator_mean_one_two (d : Nat) (v v1 v2 : List ℚ)
    (h1 : v1.length = d) (h2 : v2.length = d) :
    ((EmbeddingAccumulator.new d).add v).mean = v ∧
    (((EmbeddingAccumulator.new d).add v1).add v2).mean
      = List.zipWith (fun a b => (a + b) / 2) v1 v2 := by
  constructor
  · rw [add_new]
    unfold EmbeddingAccumulator.mean
    simp
  · rw [add_new, add_same_length ⟨v1, 1⟩ v2 (by simp [h1, h2])]
    unfold EmbeddingAccumulator.mean
    have hc : ((1 + 1 : Nat) : ℚ) = 2 := by norm_num
    simp [List.map_zipWith, hc]

/-- C7 witness with concrete vectors of dimension two. -/
theorem accumulator_mean_one_two_witness :
    (([1, 2] : List ℚ).length = 2 ∧ ([3, 5] : List ℚ).length = 2) ∧
    ((EmbeddingAccumulator.new 2).add [9]).mean = [9] ∧
    (((EmbeddingAccumulator.new 2).add [1, 2]).add [3, 5]).mean
      = List.zipWith (fun a b => (a + b) / 2) [1, 2] [3, 5] :=
  ⟨⟨by decide, by decide⟩,
    (accumulator_mean_one_two 2 [9] [1, 2] [3, 5] (by decide) (by decide)).1,
    (accumulator_mean_one_two 2 [9] [1, 2] [3, 5] (by decide) (by decide)).2⟩

/-- C8: the derived MorphemeKey comparator orders Prefix before Root
before Suffix and then texts lexicographically; it is a total order
(equality detection, swap antisymmetry, transitivity), the final listing
is sorted by it and is a permutation of the collected pairs, and any two
sorted listings of the same pairs with distinct keys coincide, so two
runs produce identically ordered output. -/
theorem final_listing_order :
    kindCmp MorphemeKind.Pfx MorphemeKind.Root = Ordering.lt ∧
    kindCmp MorphemeKind.Root MorphemeKind.Sfx = Ordering.lt ∧
    (∀ a b : MorphemeKey, keyCmp a b = Ordering.eq ↔ a = b) ∧
    (∀ a b : MorphemeKey, keyCmp b a = (keyCmp a b).swap) ∧
    (∀ a b c : MorphemeKey, (keyCmp a b).isLE = true →
      (keyCmp b c).isLE = true → (keyCmp a c).isLE = true) ∧
    (∀ l : List (MorphemeKey × List ℚ),
      (sortListing l).Pairwise pairLE ∧ List.Perm (sortListing l) l) ∧
    (∀ s1 s2 : List (MorphemeKey × List ℚ), List.Perm s1 s2 →
      s1.Pairwise pairLE → s2.Pairwise pairLE →
      (s1.map Prod.fst).Nodup → s1 = s2) :=
  ⟨by decide, by decide, keyCmp_eq_iff, keyCmp_swap, keyCmp_le_trans,
    fun l => ⟨sortListing_sorted l, sortListing_perm l⟩, listing_unique⟩

/-- C8 witness on a concrete sorted two-element listing. -/
theorem final_listing_order_witness :
    ([(MorphemeKey.mk MorphemeKind.Pfx ['a'], [(1 : ℚ)]),
      (MorphemeKey.mk MorphemeKind.Root ['a'], [(2 : ℚ)])].Pairwise pairLE ∧
     ([(MorphemeKey.mk MorphemeKind.Pfx ['a'], [(1 : ℚ)]),
       (MorphemeKey.mk MorphemeKind.Root ['a'], [(2 : ℚ)])].map Prod.fst).Nodup) ∧
    [(MorphemeKey.mk MorphemeKind.Pfx ['a'], [(1 : ℚ)]),
     (MorphemeKey.mk MorphemeKind.Root ['a'], [(2 : ℚ)])]
      = [(MorphemeKey.mk MorphemeKind.Pfx ['a'], [(1 : ℚ)]),
         (MorphemeKey.mk MorphemeKind.Root ['a'], [(2 : ℚ)])] :=
  ⟨⟨by decide, by decide⟩,
    final_listing_order.2.2.2.2.2.2 _ _ (List.Perm.refl _)
      (by decide) (by decide) (by decide)⟩

/-- C9: "kerfuffle" segments to the single Root morpheme "kerfuffle",
found as a direct first match in the root-pattern table, and the feature
vector of the claimed definition string has first component 10. -/
theorem kerfuffle_example :
    segment_into_morphemes ("kerfuffle".toList)
      = [Morpheme.mk MorphemeKind.Root ("kerfuffle".toList)] ∧
    ROOT_PATTERNS.find? (fun cand => startsWithL ("kerfuffle".toList) cand)
      = some ("kerfuffle".toList) ∧
    (definition_to_features
        ("a commotion or fuss, especially one caused by conflicting opinions.".toList)).head?
      = some 10 :=
  ⟨by decide, by decide, by decide⟩

/-- C10: on a word with nonempty cleaned form, the concatenation of the
emitted morpheme texts in emission order is exactly the cleaned word. -/
theorem segmentation_concat_exact (word : List Char)
    (h : cleanWord word ≠ []) :
    ((segment_into_morphemes word).map Morpheme.text).flatten
      = cleanWord word :=
  segment_texts_flatten word h

/-- C10 witness at a word that exercises cleaning, prefix and suffix
stripping. -/
theorem segmentation_concat_exact_witness :
    cleanWord ("Trans-Mogrification!".toList) ≠ [] ∧
    ((segment_into_morphemes ("Trans-Mogrification!".toList)).map
        Morpheme.text).flatten
      = cleanWord ("Trans-Mogrification!".toList) :=
  ⟨by decide, segmentation_concat_exact _ (by decide)⟩

end Erebus
